import Mathlib

/-!
Verification of the zombiesplit attempt-session engine.

This file shallowly embeds the data model and operations of the
`model::attempt` session engine (src/model/attempt/session.rs and the
modules it uses) and of the presenter state
(src/ui/presenter/state.rs, src/ui/presenter/state/split.rs).

Times are exact non-negative durations stored and compared as a single
scalar, so they are embedded as `Nat`.  Short names are `String`s
(`model/short.rs` makes `short::Name` an alias for `String`).

Modules of the repository that the session controller calls but whose
sources are not part of the snapshot (`model/attempt/run.rs`,
`model/attempt/split.rs`, `model/comparison.rs`, the locator trait and
the observer mux) are modelled from the spec; each such definition
carries a doc comment saying so.  Event emission is embedded by having
each mutating operation return the list of events it sends through the
observer mux, in emission order.
-/

namespace Zombie

/-- Times are exact non-negative scalar durations. -/
abbrev Time := Nat

/-- Short names (model/short.rs: an alias for String). -/
abbrev ShortName := String

/-- Enumeration of sources for aggregate times (model/aggregate.rs `Source`). -/
inductive Source where
  | attempt
  | comparison
deriving DecidableEq

/-- Enumeration of scopes for aggregate times (model/aggregate.rs `Scope`). -/
inductive Scope where
  | split
  | cumulative
deriving DecidableEq

/-- The kind (source and scope) of an aggregate time (model/aggregate.rs `Kind`). -/
structure Kind where
  source : Source
  scope : Scope
deriving DecidableEq

/-- A pair of aggregate times, organised by scope (model/aggregate.rs `Pair`).
Both components are optional; `none` marks an aggregate that is not defined. -/
structure Pair where
  split : Option Time
  cumulative : Option Time
deriving DecidableEq

/-- The all-`none` default of `Pair` (the derived `Default` in the source). -/
def Pair.empty : Pair := ⟨none, none⟩

/-- A set of aggregate times, organised by source (model/aggregate.rs `Set`). -/
structure AggSet where
  attempt : Pair
  comparison : Pair
deriving DecidableEq

/-- The default aggregate set: all four entries undefined. -/
def AggSet.empty : AggSet := ⟨Pair.empty, Pair.empty⟩

/-- Reading a set at a source (the `Index<Source>` impl in model/aggregate.rs). -/
def AggSet.atSource (a : AggSet) : Source → Pair
  | .attempt => a.attempt
  | .comparison => a.comparison

/-- Reading a pair at a scope (the `Index<Scope>` impl in model/aggregate.rs). -/
def Pair.atScope (p : Pair) : Scope → Option Time
  | .split => p.split
  | .cumulative => p.cumulative

/-- Writing a pair at a scope (the `IndexMut<Scope>` impl in model/aggregate.rs). -/
def Pair.setScope (p : Pair) (sc : Scope) (t : Option Time) : Pair :=
  match sc with
  | .split => ⟨t, p.cumulative⟩
  | .cumulative => ⟨p.split, t⟩

/-- Writing a set at a kind, i.e. `set[kind.source][kind.scope] = t`
(the `IndexMut` impls in model/aggregate.rs composed). -/
def AggSet.setKind (a : AggSet) (k : Kind) (t : Option Time) : AggSet :=
  match k.source with
  | .attempt => ⟨a.attempt.setScope k.scope t, a.comparison⟩
  | .comparison => ⟨a.attempt, a.comparison.setScope k.scope t⟩

/-- Modelled from the spec: pace classification of one split in the run
(comparison/pace.rs `SplitInRun` is not in the snapshot).  A split is
`inconclusive` (no data), `ahead`, `behind` (with the absolute delta
between comparison-cumulative and attempt-cumulative), or exactly on pace. -/
inductive SplitInRun where
  | inconclusive
  | ahead (delta : Time)
  | behind (delta : Time)
  | onPace
deriving DecidableEq

/-- Modelled from the spec: the pace component of a `PacedTime`, i.e. a
`SplitInRun` with the delta forgotten (what `SplitInRun::overall` returns). -/
inductive Pace where
  | inconclusive
  | ahead
  | behind
  | onPace
deriving DecidableEq

/-- Modelled from the spec: `SplitInRun::overall`, forgetting the delta. -/
def SplitInRun.overall : SplitInRun → Pace
  | .inconclusive => .inconclusive
  | .ahead _ => .ahead
  | .behind _ => .behind
  | .onPace => .onPace

/-- Modelled from the spec: a pace paired with a time (comparison/pace.rs
`PacedTime`).  The default value is an inconclusive zero time. -/
structure PacedTime where
  pace : Pace
  time : Time
deriving DecidableEq

/-- The `Default` value of `PacedTime`: inconclusive pace, zero time. -/
def PacedTime.defaultVal : PacedTime := ⟨.inconclusive, 0⟩

/-- Modelled from the spec: `PacedTime::inconclusive` wraps a comparison
total (absent totals become zero) with the inconclusive pace. -/
def PacedTime.inconclusive (t : Option Time) : PacedTime := ⟨.inconclusive, t.getD 0⟩

/-- Identity metadata of a split: short name and display name. -/
structure SplitInfo where
  short : ShortName
  name : String
deriving DecidableEq

/-- Modelled from the spec: one split of the run
(model/attempt/split.rs is not in the snapshot): identity metadata plus
the stack of times logged in the current attempt.  Times are pushed at
the end of the list and popped from the end, mirroring a Rust `Vec`. -/
structure Split where
  info : SplitInfo
  times : List Time
deriving DecidableEq

/-- Number of times logged on the split (`Split::num_times`). -/
def Split.numTimes (s : Split) : Nat := s.times.length

/-- Sum of all logged times (`Split::total`); zero when empty. -/
def Split.totalTime (s : Split) : Time := s.times.sum

/-- Appends a time to the split (`Split::push`); always succeeds. -/
def Split.push (s : Split) (t : Time) : Split := ⟨s.info, s.times ++ [t]⟩

/-- Removes and returns the most recently pushed time (`Split::pop`);
`none` when the stack is empty. -/
def Split.pop (s : Split) : Option (Time × Split) :=
  match s.times.getLast? with
  | none => none
  | some t => some (t, ⟨s.info, s.times.dropLast⟩)

/-- Empties the stack of times (`Split::clear`); metadata is kept. -/
def Split.clear (s : Split) : Split := ⟨s.info, []⟩

/-- Modelled from the spec: the run — ordered splits plus the attempt
number (model/attempt/run.rs is not in the snapshot). -/
structure Run where
  splits : List Split
  attempt : Nat
deriving DecidableEq

/-- Modelled from the spec: derived run status — not started when no
split has a time, complete when every split has one, in progress
otherwise. -/
inductive Status where
  | notStarted
  | inProgress
  | complete
deriving DecidableEq

/-- Derives the status of a run from its splits. -/
def Run.status (r : Run) : Status :=
  if r.splits.all (fun s => s.times.isEmpty) then .notStarted
  else if r.splits.all (fun s => !s.times.isEmpty) then .complete
  else .inProgress

/-- Maps a status to a completion flag: a run that was never started has
no completion (and produces no historic record). -/
def Status.toCompleteness : Status → Option Bool
  | .notStarted => none
  | .inProgress => some false
  | .complete => some true

/-- Index of the first split whose short name matches, mirroring
`Run::position_of` on the ordered split list. -/
def findShort (n : ShortName) : List Split → Option Nat
  | [] => none
  | sp :: rest => if sp.info.short == n then some 0 else (findShort n rest).map (· + 1)

/-- Modelled from the spec: a locator is either a zero-based index or a
short name (the `split::Locator` trait is not in the snapshot). -/
inductive Locator where
  | index (i : Nat)
  | short (n : ShortName)
deriving DecidableEq

/-- Resolves a locator to a split position, if any: an index resolves iff
in range, a short name via the first matching split. -/
def Run.positionOfLoc (r : Run) : Locator → Option Nat
  | .index i => if i < r.splits.length then some i else none
  | .short n => findShort n r.splits

/-- Clears every split and bumps the attempt number (`Run::reset`). -/
def Run.reset (r : Run) : Run := ⟨r.splits.map Split.clear, r.attempt + 1⟩

/-- The ordered list of split identities and their full time lists
(`Run::timing_as_historic`), as handed to the history store. -/
def Run.timingAsHistoric (r : Run) : List (ShortName × List Time) :=
  r.splits.map (fun s => (s.info.short, s.times))

/-- A historic record of an outgoing run (history::run::FullyTimed):
category locator, completion flag, timestamp and per-split time lists. -/
structure Historic where
  categoryLocator : String
  wasCompleted : Bool
  date : Nat
  timing : List (ShortName × List Time)
deriving DecidableEq

/-- Modelled from the spec: a comparison snapshot
(model/comparison.rs is not in the snapshot): per-split comparison
aggregate pairs keyed by short name, plus an optional total. -/
structure Comparison where
  perSplit : List (ShortName × Pair)
  totalOf : Option Time
deriving DecidableEq

/-- The default comparison: no entries, absent total (the Null comparison). -/
def Comparison.empty : Comparison := ⟨[], none⟩

/-- Looks up the comparison aggregate pair for a short name
(`Comparison::aggregate_for`). -/
def Comparison.aggregateFor (c : Comparison) (n : ShortName) : Option Pair :=
  match c.perSplit.find? (fun p => p.fst == n) with
  | some p => some p.snd
  | none => none

/-- Modelled from the spec: `Comparison::pace` classifies an aggregate
set against the baseline: inconclusive unless both the comparison
cumulative and the attempt cumulative are defined, otherwise the sign of
comparison-cumulative minus attempt-cumulative. -/
def Comparison.pace (_c : Comparison) (_n : ShortName) (agg : AggSet) : SplitInRun :=
  match agg.comparison.cumulative, agg.attempt.cumulative with
  | some cc, some ac =>
      if cc < ac then .behind (ac - cc)
      else if ac < cc then .ahead (cc - ac)
      else .onPace
  | _, _ => .inconclusive

/-- Modelled from the spec: the aggregate engine (run.splits.aggregates()).
Walks the splits in order carrying the running attempt cumulative:
attempt-split is the sum of the split's times (`none` when no time is
logged), attempt-cumulative is the running sum and is defined only while
every split so far has at least one time, and the comparison side is
copied verbatim from the comparison snapshot for the split's short name. -/
def aggregatesFrom (c : Comparison) (acc : Option Time) : List Split → List (Split × AggSet)
  | [] => []
  | sp :: rest =>
      let asp : Option Time := if sp.times.isEmpty then none else some sp.times.sum
      let acu : Option Time :=
        match acc, asp with
        | some a, some v => some (a + v)
        | _, _ => none
      let cmp : Pair := (c.aggregateFor sp.info.short).getD Pair.empty
      (sp, ⟨⟨asp, acu⟩, cmp⟩) :: aggregatesFrom c acu rest

/-- The per-split aggregate sweep of a run against a comparison. -/
def Run.aggregates (r : Run) (c : Comparison) : List (Split × AggSet) :=
  aggregatesFrom c (some 0) r.splits

/-- The variants of per-split time events (observer::split / observer::time):
a pushed time, a popped time, or an aggregate update of some kind. -/
inductive TimeKind where
  | pushed
  | popped
  | aggregate (kind : Kind)
deriving DecidableEq

/-- An event on one split: a time event or a pace update. -/
inductive SplitEvent where
  | time (t : Time) (k : TimeKind)
  | pace (p : SplitInRun)
deriving DecidableEq

/-- Events broadcast to observers (model/attempt/observer.rs `Event`,
with `Total` carried as in the session's emission sites). -/
inductive Event where
  | addSplit (short : ShortName) (name : String)
  | reset (outgoing : Option Historic)
  | attempt (info : Nat)
  | gameCategory (info : String)
  | splitEv (short : ShortName) (e : SplitEvent)
  | total (t : PacedTime) (source : Source)
deriving DecidableEq

/-- The attempt session (model/attempt/session.rs `Session`).  The
metadata is the category short descriptor; the timestamper function is
modelled by the timestamp it returns; the comparison provider is not
stored but passed to the operations that consult it, and the observer
mux is embedded by returning the list of events each operation emits,
in emission order. -/
structure Session where
  metadata : String
  run : Run
  comparison : Comparison
  timestamper : Nat
deriving DecidableEq

/-- Converts the current run to a historic record with a completion flag
(`Session::run_as_historic_with_completion`). -/
def Session.runAsHistoricWith (s : Session) (wasCompleted : Bool) : Historic :=
  ⟨s.metadata, wasCompleted, s.timestamper, s.run.timingAsHistoric⟩

/-- Converts the current run, if started, to a historic record
(`Session::run_as_historic`); `none` when the run was never started. -/
def Session.runAsHistoric (s : Session) : Option Historic :=
  s.run.status.toCompleteness.map s.runAsHistoricWith

/-- The pace of one split during the sweep (`Session::split_pace`):
inconclusive when the split has no logged times, otherwise classified
by the comparison. -/
def Session.splitPace (s : Session) (sp : Split) (agg : AggSet) : SplitInRun :=
  if sp.numTimes = 0 then .inconclusive else s.comparison.pace sp.info.short agg

/-- Modelled from the spec: `observe_aggregate_set` emits the defined
aggregate values of the chosen source's pair as aggregate events for the
split, split scope first, then cumulative scope. -/
def observeAggregateSet (short : ShortName) (agg : AggSet) (src : Source) : List Event :=
  (match (agg.atSource src).split with
   | some t => [Event.splitEv short (.time t (.aggregate ⟨src, .split⟩))]
   | none => []) ++
  (match (agg.atSource src).cumulative with
   | some t => [Event.splitEv short (.time t (.aggregate ⟨src, .cumulative⟩))]
   | none => [])

/-- The per-split events of the sweep loop in
`Session::observe_paces_and_aggregates`: for each split, its pace event
followed by its attempt-source aggregate events. -/
def sweepEvents (s : Session) : List (Split × AggSet) → List Event
  | [] => []
  | (sp, agg) :: rest =>
      Event.splitEv sp.info.short (.pace (s.splitPace sp agg)) ::
        (observeAggregateSet sp.info.short agg .attempt ++ sweepEvents s rest)

/-- The running total of the sweep loop in
`Session::observe_paces_and_aggregates`.  The loop replaces the total
when `total.time < agg.cumulative`; the attempt cumulative is optional
here, and an undefined cumulative never replaces the total (per the
spec, the total tracks the cumulative of splits whose attempt cumulative
is defined). -/
def sweepTotal (s : Session) (total : PacedTime) : List (Split × AggSet) → PacedTime
  | [] => total
  | (sp, agg) :: rest =>
      let next : PacedTime :=
        match agg.attempt.cumulative with
        | some c => if total.time < c then ⟨(s.splitPace sp agg).overall, c⟩ else total
        | none => total
      sweepTotal s next rest

/-- `Session::observe_paces_and_aggregates`: the full sweep — per-split
pace and aggregate events in split order, then one Total event carrying
the final running total for the attempt source. -/
def Session.observePacesAndAggregates (s : Session) : List Event :=
  sweepEvents s (s.run.aggregates s.comparison) ++
    [Event.total (sweepTotal s PacedTime.defaultVal (s.run.aggregates s.comparison)) .attempt]

/-- Comparison aggregate events for each split in the run
(`Session::observe_comparison_splits`): splits with no comparison entry
are skipped. -/
def observeComparisonSplitsGo (c : Comparison) : List Split → List Event
  | [] => []
  | sp :: rest =>
      (match c.aggregateFor sp.info.short with
       | some pr => observeAggregateSet sp.info.short ⟨Pair.empty, pr⟩ .comparison
       | none => []) ++ observeComparisonSplitsGo c rest

/-- `Session::observe_comparison`: the comparison total event followed by
the per-split comparison aggregate events. -/
def Session.observeComparison (s : Session) : List Event :=
  Event.total (PacedTime.inconclusive s.comparison.totalOf) .comparison ::
    observeComparisonSplitsGo s.comparison s.run.splits

/-- `Session::refresh_comparison`: pulls the provider (its result is the
`prov` argument); a `none` result leaves the stored comparison exactly as
it was; either way the comparison is then observed. -/
def Session.refreshComparison (s : Session) (prov : Option Comparison) :
    Session × List Event :=
  let s2 : Session :=
    match prov with
    | some c => ⟨s.metadata, s.run, c, s.timestamper⟩
    | none => s
  (s2, s2.observeComparison)

/-- `Session::set_comparison_provider`: replaces the provider (modelled by
the `prov` argument carrying the new provider's answer) and triggers an
immediate comparison refresh. -/
def Session.setComparisonProvider (s : Session) (prov : Option Comparison) :
    Session × List Event :=
  s.refreshComparison prov

/-- `Session::reset` (the `NewRun` action): observe the reset with the
outgoing historic record, reset the run, observe the new attempt number,
then refresh the comparison. -/
def Session.resetSession (s : Session) (prov : Option Comparison) :
    Session × List Event :=
  let e1 := Event.reset s.runAsHistoric
  let s2 : Session := ⟨s.metadata, s.run.reset, s.comparison, s.timestamper⟩
  let e2 := Event.attempt s2.run.attempt
  let r3 := s2.refreshComparison prov
  (r3.fst, e1 :: e2 :: r3.snd)

/-- `Session::clear_at`: resolve the locator and clear the split there;
a locator that does not resolve makes the action a no-op.  No event is
emitted (the observation is a documented gap in the source). -/
def Session.clearAt (s : Session) (loc : Locator) : Session :=
  match s.run.positionOfLoc loc with
  | none => s
  | some i =>
      match s.run.splits[i]? with
      | none => s
      | some sp =>
          ⟨s.metadata, ⟨s.run.splits.set i sp.clear, s.run.attempt⟩,
            s.comparison, s.timestamper⟩

/-- `Session::push_to`: resolve the locator, push the time, emit the
pushed-time event and run the aggregate/pace sweep; a locator that does
not resolve makes the action a silent no-op. -/
def Session.pushTo (s : Session) (loc : Locator) (t : Time) : Session × List Event :=
  match s.run.positionOfLoc loc with
  | none => (s, [])
  | some i =>
      match s.run.splits[i]? with
      | none => (s, [])
      | some sp =>
          let s2 : Session :=
            ⟨s.metadata, ⟨s.run.splits.set i (sp.push t), s.run.attempt⟩,
              s.comparison, s.timestamper⟩
          (s2, Event.splitEv sp.info.short (.time t .pushed) ::
                 s2.observePacesAndAggregates)

/-- `Session::pop_from`: resolve the locator and pop the split there;
only when a time was actually popped are the popped-time event and the
sweep emitted, otherwise the whole action is a silent no-op. -/
def Session.popFrom (s : Session) (loc : Locator) : Session × List Event :=
  match s.run.positionOfLoc loc with
  | none => (s, [])
  | some i =>
      match s.run.splits[i]? with
      | none => (s, [])
      | some sp =>
          match sp.pop with
          | none => (s, [])
          | some (t, sp2) =>
              let s2 : Session :=
                ⟨s.metadata, ⟨s.run.splits.set i sp2, s.run.attempt⟩,
                  s.comparison, s.timestamper⟩
              (s2, Event.splitEv sp.info.short (.time t .popped) ::
                     s2.observePacesAndAggregates)

/-- The action surface into the session (model/attempt/action.rs `Action`). -/
inductive Action where
  | push (loc : Locator) (t : Time)
  | pop (loc : Locator)
  | clear (loc : Locator)
  | newRun
deriving DecidableEq

/-- `Session::perform`: dispatches an action.  The `prov` argument is the
answer the comparison provider would give if pulled during this action
(only `newRun` pulls it). -/
def Session.perform (s : Session) (prov : Option Comparison) (a : Action) :
    Session × List Event :=
  match a with
  | .clear loc => (s.clearAt loc, [])
  | .newRun => s.resetSession prov
  | .pop loc => s.popFrom loc
  | .push loc t => s.pushTo loc t

/-!
Presenter state (src/ui/presenter/state.rs and
src/ui/presenter/state/split.rs).
-/

/-- Presenter state about one split (state.rs `Split`): time count,
display name, cached aggregates and pace.  The newer
state/split.rs `Split` adds cursor-position and editor fields that no
claim touches; they are omitted here. -/
structure PSplit where
  numTimes : Nat
  name : String
  aggregates : AggSet
  paceInRun : SplitInRun
deriving DecidableEq

/-- The default presenter split: nothing logged, inconclusive pace. -/
def PSplit.defaultVal : PSplit := ⟨0, "", AggSet.empty, .inconclusive⟩

/-- `Split::handle_event` in the presenter state.  The popped-time arm
decrements `num_times`, an unsigned integer: when `num_times` is zero
the Rust subtraction underflows (a panic); that partiality is embedded
by returning `none` in exactly that case. -/
def PSplit.handleEvent (s : PSplit) : SplitEvent → Option PSplit
  | .time t (.aggregate k) =>
      some ⟨s.numTimes, s.name, s.aggregates.setKind k (some t), s.paceInRun⟩
  | .time _ .pushed => some ⟨s.numTimes + 1, s.name, s.aggregates, s.paceInRun⟩
  | .time _ .popped =>
      if s.numTimes = 0 then none
      else some ⟨s.numTimes - 1, s.name, s.aggregates, s.paceInRun⟩
  | .pace p => some ⟨s.numTimes, s.name, s.aggregates, p⟩

/-- Delivers a sequence of events to one presenter split, stopping with
`none` as soon as one delivery underflows. -/
def PSplit.handleEvents (s : PSplit) : List SplitEvent → Option PSplit
  | [] => some s
  | e :: rest =>
      match s.handleEvent e with
      | some s2 => s2.handleEvents rest
      | none => none

/-- Number of pushed-time events in a sequence. -/
def countPushed (evts : List SplitEvent) : Nat :=
  evts.countP (fun e =>
    match e with
    | .time _ .pushed => true
    | _ => false)

/-- Number of popped-time events in a sequence. -/
def countPopped (evts : List SplitEvent) : Nat :=
  evts.countP (fun e =>
    match e with
    | .time _ .popped => true
    | _ => false)

/-- Lookup in an association list from short names, mirroring both
`HashMap::get` and `BiHashMap::get_by_left` (our maps are keyed at most
once per name). -/
def lookupName : List (ShortName × Nat) → ShortName → Option Nat
  | [], _ => none
  | (a, b) :: rest, k => if a == k then some b else lookupName rest k

/-- Insertion for `bimap::BiHashMap` modelled on an association list:
inserting a pair removes every existing pair that shares its key or its
value, then adds the pair. -/
def bimapInsert : List (ShortName × Nat) → ShortName → Nat → List (ShortName × Nat)
  | [], k, v => [(k, v)]
  | (a, b) :: rest, k, v =>
      if a == k || b == v then bimapInsert rest k v
      else (a, b) :: bimapInsert rest k v

/-- Insertion for `HashMap` modelled on an association list: inserting a
pair removes every existing pair with the same key, then adds the pair. -/
def mapInsert : List (ShortName × Nat) → ShortName → Nat → List (ShortName × Nat)
  | [], k, v => [(k, v)]
  | (a, b) :: rest, k, v =>
      if a == k then mapInsert rest k v
      else (a, b) :: mapInsert rest k v

/-- The presenter's representation of the model (state.rs `State`),
restricted to the two fields the claims are about: the bidirectional
short-name map and the split vector.  (Attempt and game-category info
are untouched by every operation modelled here.) -/
structure PState where
  shortMap : List (ShortName × Nat)
  splits : List PSplit
deriving DecidableEq

/-- The default (empty) presenter state. -/
def PState.empty : PState := ⟨[], []⟩

/-- `State::add_split`: push a default split with the display name, then
bind the short name to the new last index. -/
def PState.addSplit (st : PState) (short : ShortName) (name : String) : PState :=
  let splits2 := st.splits ++ [⟨0, name, AggSet.empty, .inconclusive⟩]
  ⟨bimapInsert st.shortMap short (splits2.length - 1), splits2⟩

/-- Folds `add_split` over a list of (short name, display name) pairs. -/
def PState.addSplits (st : PState) : List (ShortName × String) → PState
  | [] => st
  | (short, nm) :: rest => (st.addSplit short nm).addSplits rest

/-- `State::handle_split_event`: look the short name up in the map, then
deliver the event to the split at the found index; an unknown name or an
out-of-range index leaves the state untouched.  `none` again embeds the
underflow panic of the inner delivery. -/
def PState.handleSplitEvent (st : PState) (short : ShortName) (evt : SplitEvent) :
    Option PState :=
  match lookupName st.shortMap short with
  | none => some st
  | some i =>
      match st.splits[i]? with
      | none => some st
      | some sp =>
          match sp.handleEvent evt with
          | some sp2 => some ⟨st.shortMap, st.splits.set i sp2⟩
          | none => none

/-- The opaque split set of state/split.rs (`Set`): a short-name map and
a vector of split states kept in sync. -/
structure SplitSet where
  shortMap : List (ShortName × Nat)
  vec : List PSplit
deriving DecidableEq

/-- `Split::from_dump` (state/split.rs): a presenter split built from a
model split dump — the time count and name are taken from the dump, the
rest is default. -/
def PSplit.fromDump (sp : Split) : PSplit :=
  ⟨sp.times.length, sp.info.name, AggSet.empty, .inconclusive⟩

/-- The enumerated loop body of `Set::from_iter` (state/split.rs): for
each dump at enumeration index `i`, bind its short name to `i` and push
its split state. -/
def SplitSet.fromIterGo (i : Nat) (l : List Split) (st : SplitSet) : SplitSet :=
  match l with
  | [] => st
  | sp :: rest =>
      SplitSet.fromIterGo (i + 1) rest
        ⟨mapInsert st.shortMap sp.info.short i, st.vec ++ [PSplit.fromDump sp]⟩

/-- `Set::from_iter`: builds a split set from a list of model splits. -/
def SplitSet.fromIter (l : List Split) : SplitSet :=
  SplitSet.fromIterGo 0 l ⟨[], []⟩

/-- `Set::index_of`: the last-seen index of a short name. -/
def SplitSet.indexOf (ss : SplitSet) (short : ShortName) : Option Nat :=
  lookupName ss.shortMap short

/-- `Set::handle_event` (state/split.rs): deliver an event to the split
found via `index_of`; an unknown name or out-of-range index is a no-op. -/
def SplitSet.handleEvent (ss : SplitSet) (short : ShortName) (evt : SplitEvent) :
    Option SplitSet :=
  match ss.indexOf short with
  | none => some ss
  | some i =>
      match ss.vec[i]? with
      | none => some ss
      | some sp =>
          match sp.handleEvent evt with
          | some sp2 => some ⟨ss.shortMap, ss.vec.set i sp2⟩
          | none => none

/-!
Specification-side definitions for the Total event of the sweep (C1).
-/

/-- The update candidates the sweep loop sees, in split order: one
`PacedTime` (overall pace of the split, attempt cumulative) per split
whose attempt cumulative is defined. -/
def pacedCandidatesOf (s : Session) : List (Split × AggSet) → List PacedTime
  | [] => []
  | (sp, agg) :: rest =>
      match agg.attempt.cumulative with
      | some c => ⟨(s.splitPace sp agg).overall, c⟩ :: pacedCandidatesOf s rest
      | none => pacedCandidatesOf s rest

/-- The sweep's candidates for a session's current run and comparison. -/
def pacedCandidates (s : Session) : List PacedTime :=
  pacedCandidatesOf s (s.run.aggregates s.comparison)

/-- The defined attempt cumulatives of an aggregate sweep, in split order. -/
def definedCumsOf : List (Split × AggSet) → List Time
  | [] => []
  | (_, agg) :: rest =>
      match agg.attempt.cumulative with
      | some c => c :: definedCumsOf rest
      | none => definedCumsOf rest

/-- The running-total fold of the sweep loop, isolated on the candidate
list: starting from a current best, each candidate replaces it exactly
when its time is strictly greater. -/
def foldCand : PacedTime → List PacedTime → PacedTime
  | t, [] => t
  | t, c :: rest => foldCand (if t.time < c.time then c else t) rest

/-- Spec wording for the Total event's value: the cumulative aggregate of
the last split for which the attempt cumulative is defined (zero — the
default total — when no split has one). -/
def totalTimeSpec (s : Session) : Time :=
  (definedCumsOf (s.run.aggregates s.comparison)).getLast?.getD 0

/-- Amended spec wording for the Total event's pace: the pace of the
earliest candidate whose time equals the Total value, with the default
(inconclusive, zero) candidate standing before all splits. -/
def totalPaceSpec (s : Session) : Pace :=
  (((PacedTime.defaultVal :: pacedCandidates s).find?
      (fun p => p.time == totalTimeSpec s)).getD PacedTime.defaultVal).pace

/-- The claim's wording for the Total event's pace: the pace of the split
with the greatest defined attempt cumulative, ties broken by preferring
the later (higher-index) split — i.e. the first candidate achieving the
Total value when scanning the candidates backwards. -/
def totalPaceClaim (s : Session) : Pace :=
  ((((pacedCandidates s).reverse).find?
      (fun p => p.time == totalTimeSpec s)).getD PacedTime.defaultVal).pace

/-!
Concrete fixtures used by witnesses and counterexamples.
-/

/-- A comparison with data for two splits and a total. -/
def cComp : Comparison := ⟨[("a", ⟨some 20, some 20⟩), ("b", ⟨none, some 5⟩)], some 25⟩

/-- A session mid-run: split a has a 10 logged, split b a 0, with `cComp`
as the baseline. -/
def cSess : Session := ⟨"g", ⟨[⟨⟨"a", "A"⟩, [10]⟩, ⟨⟨"b", "B"⟩, [0]⟩], 1⟩, cComp, 0⟩

/-- A one-split session with one logged time and no comparison. -/
def wSess : Session := ⟨"g", ⟨[⟨⟨"a", "A"⟩, [1]⟩], 1⟩, Comparison.empty, 0⟩

/-- A one-split session where nothing has ever been logged. -/
def wSessEmpty : Session := ⟨"g", ⟨[⟨⟨"a", "A"⟩, []⟩], 1⟩, Comparison.empty, 0⟩

/-- C2.  An action whose locator does not resolve to a split of the
current run leaves the session untouched and emits no event, for push,
pop and clear alike; no error is raised (the operations are total). -/
theorem unresolved_locator_noop (s : Session) (loc : Locator) (prov : Option Comparison)
    (h : s.run.positionOfLoc loc = none) :
    (∀ t : Time, s.perform prov (Action.push loc t) = (s, [])) ∧
    s.perform prov (Action.pop loc) = (s, []) ∧
    s.perform prov (Action.clear loc) = (s, []) := by
  refine ⟨fun t => ?_, ?_, ?_⟩ <;>
    simp [Session.perform, Session.pushTo, Session.popFrom, Session.clearAt, h]

/-- C2 witness: popping at an unknown short name is a silent no-op. -/
theorem unresolved_locator_noop_witness :
    Session.perform wSess none (Action.pop (Locator.short "z")) = (wSess, []) :=
  (unresolved_locator_noop wSess (Locator.short "z") none (by decide)).2.1

/-- C3.  Performing `NewRun` emits, in order: one Reset event carrying
the outgoing historic record, one Attempt event carrying the incremented
attempt number, then the refreshed comparison Total/per-split events,
with the comparison re-pulled from the provider (kept when the provider
answers nothing); and the Reset payload is `none` whenever no split has
ever been logged. -/
theorem new_run_protocol (s : Session) (prov : Option Comparison) :
    s.perform prov Action.newRun =
      (⟨s.metadata, s.run.reset, prov.getD s.comparison, s.timestamper⟩,
        Event.reset s.runAsHistoric ::
          Event.attempt (s.run.attempt + 1) ::
            Session.observeComparison
              ⟨s.metadata, s.run.reset, prov.getD s.comparison, s.timestamper⟩) ∧
    ((∀ sp ∈ s.run.splits, sp.times = []) → s.runAsHistoric = none) := by
  constructor
  · cases prov <;>
      simp [Session.perform, Session.resetSession, Session.refreshComparison,
        Run.reset, Option.getD]
  · intro h
    have hs : s.run.status = Status.notStarted := by
      have : s.run.splits.all (fun sp => sp.times.isEmpty) = true := by
        rw [List.all_eq_true]
        intro sp hsp
        simp [h sp hsp]
      simp [Run.status, this]
    simp [Session.runAsHistoric, hs, Status.toCompleteness]

/-- C3 witness: on a never-started run the Reset payload is `none`. -/
theorem new_run_protocol_witness : Session.runAsHistoric wSessEmpty = none :=
  (new_run_protocol wSessEmpty (some cComp)).2 (by decide)

/-- C4.  A split with zero logged times gets the Inconclusive pace in
the sweep, whatever the session's comparison holds. -/
theorem zero_times_pace_inconclusive (s : Session) (sp : Split) (agg : AggSet)
    (h : sp.numTimes = 0) : s.splitPace sp agg = SplitInRun.inconclusive := by
  simp [Session.splitPace, h]

/-- C4 witness: even with full comparison data in the aggregate set, an
unattempted split is paced Inconclusive. -/
theorem zero_times_pace_inconclusive_witness :
    Session.splitPace cSess ⟨⟨"a", "A"⟩, []⟩ ⟨⟨some 1, some 1⟩, ⟨some 2, some 2⟩⟩ =
      SplitInRun.inconclusive :=
  zero_times_pace_inconclusive cSess ⟨⟨"a", "A"⟩, []⟩ ⟨⟨some 1, some 1⟩, ⟨some 2, some 2⟩⟩ rfl

/-- C5.  Popping a resolvable split with an empty time stack leaves the
session unchanged and emits nothing; and when the stack is not empty the
emitted events are exactly the popped-time event followed by the sweep
(so TimePopped, the sweep and the Total appear only when a time was
actually popped). -/
theorem pop_empty_noop (s : Session) (loc : Locator) (prov : Option Comparison)
    (i : Nat) (sp : Split)
    (hpos : s.run.positionOfLoc loc = some i)
    (hget : s.run.splits[i]? = some sp) :
    (sp.times = [] → s.perform prov (Action.pop loc) = (s, [])) ∧
    (sp.times ≠ [] →
      ∃ t s2, s.perform prov (Action.pop loc) =
        (s2, Event.splitEv sp.info.short (SplitEvent.time t TimeKind.popped) ::
               s2.observePacesAndAggregates)) := by
  constructor
  · intro he
    simp [Session.perform, Session.popFrom, hpos, hget, Split.pop, he]
  · intro hne
    have hsome : (sp.times.getLast?).isSome := List.getLast?_isSome.mpr hne
    obtain ⟨t, ht⟩ := Option.isSome_iff_exists.mp hsome
    refine ⟨t, ⟨s.metadata, ⟨s.run.splits.set i ⟨sp.info, sp.times.dropLast⟩,
      s.run.attempt⟩, s.comparison, s.timestamper⟩, ?_⟩
    simp [Session.perform, Session.popFrom, hpos, hget, Split.pop, ht]

/-- C5 witness: popping the empty first split of a fresh run changes
nothing and emits nothing. -/
theorem pop_empty_noop_witness :
    Session.perform wSessEmpty none (Action.pop (Locator.index 0)) = (wSessEmpty, []) :=
  (pop_empty_noop wSessEmpty (Locator.index 0) none 0 ⟨⟨"a", "A"⟩, []⟩
      (by decide) (by decide)).1 rfl

/-- C6.  When the comparison provider answers `none` — on a provider
change, or on the refresh a `NewRun` triggers — the stored comparison is
left exactly as it was.  (At construction the session starts from the
null provider and performs no pull at all.) -/
theorem provider_none_keeps_comparison (s : Session) :
    (s.refreshComparison none).fst.comparison = s.comparison ∧
    (s.perform none Action.newRun).fst.comparison = s.comparison ∧
    (s.setComparisonProvider none).fst.comparison = s.comparison := by
  refine ⟨rfl, ?_, rfl⟩
  simp [Session.perform, Session.resetSession, Session.refreshComparison]

/-- C10.  Delivering a split event for a short name absent from the
short-name map leaves the presenter state untouched (both in the
state-level handler and in the split-set handler), and no panic path is
reached. -/
theorem unknown_short_event_noop (st : PState) (ss : SplitSet) (short : ShortName)
    (evt : SplitEvent) :
    (lookupName st.shortMap short = none →
      st.handleSplitEvent short evt = some st) ∧
    (lookupName ss.shortMap short = none →
      ss.handleEvent short evt = some ss) := by
  constructor
  · intro h
    simp [PState.handleSplitEvent, h]
  · intro h
    simp [SplitSet.handleEvent, SplitSet.indexOf, h]

/-- C10 witness: an event for an unknown name leaves a concrete one-split
presenter state unchanged. -/
theorem unknown_short_event_noop_witness :
    PState.handleSplitEvent ⟨[("a", 0)], [PSplit.defaultVal]⟩ "z"
        (SplitEvent.pace SplitInRun.onPace) =
      some ⟨[("a", 0)], [PSplit.defaultVal]⟩ :=
  (unknown_short_event_noop ⟨[("a", 0)], [PSplit.defaultVal]⟩ ⟨[], []⟩ "z"
      (SplitEvent.pace SplitInRun.onPace)).1 (by decide)

/-!
C7: clearing is idempotent.
-/

/-- Clearing a split keeps its identity metadata. -/
theorem Split.clear_info (sp : Split) : sp.clear.info = sp.info := rfl

/-- Short-name search is unaffected by clearing a split in place. -/
theorem findShort_set_clear (n : ShortName) :
    ∀ (l : List Split) (i : Nat) (sp : Split), l[i]? = some sp →
      findShort n (l.set i sp.clear) = findShort n l := by
  intro l
  induction l with
  | nil => intro i sp h; simp at h
  | cons x rest ih =>
      intro i sp h
      cases i with
      | zero =>
          simp at h
          subst h
          simp [findShort, Split.clear]
      | succ j =>
          simp at h
          simp [findShort, ih j sp h]

/-- Locator resolution is unaffected by clearing a split in place. -/
theorem positionOfLoc_set_clear (r : Run) (i : Nat) (sp : Split)
    (h : r.splits[i]? = some sp) (loc : Locator) :
    Run.positionOfLoc ⟨r.splits.set i sp.clear, r.attempt⟩ loc = r.positionOfLoc loc := by
  cases loc with
  | index j => simp [Run.positionOfLoc]
  | short n => simp [Run.positionOfLoc, findShort_set_clear n r.splits i sp h]

/-- Clearing at a locator twice is the same as clearing once. -/
theorem clearAt_clearAt (s : Session) (loc : Locator) :
    (s.clearAt loc).clearAt loc = s.clearAt loc := by
  cases hpos : s.run.positionOfLoc loc with
  | none => simp [Session.clearAt, hpos]
  | some i =>
      cases hget : s.run.splits[i]? with
      | none => simp [Session.clearAt, hpos, hget]
      | some sp =>
          have hlt : i < s.run.splits.length := by
            rcases List.getElem?_eq_some.mp hget with ⟨hl, _⟩
            exact hl
          have h1 : s.clearAt loc =
              ⟨s.metadata, ⟨s.run.splits.set i sp.clear, s.run.attempt⟩,
                s.comparison, s.timestamper⟩ := by
            simp [Session.clearAt, hpos, hget]
          have hget2 : (s.run.splits.set i sp.clear)[i]? = some sp.clear :=
            List.getElem?_set_eq_of_lt _ (by simpa using hlt)
          have hcc : sp.clear.clear = sp.clear := rfl
          rw [h1]
          simp only [Session.clearAt]
          rw [positionOfLoc_set_clear s.run i sp hget loc, hpos]
          simp [hget2, List.set_set, hcc]

/-- C7.  Performing `Clear(loc)` twice in a row produces exactly the
state (and the empty event output) of performing it once, for every
session and locator — resolvable or not. -/
theorem clear_idempotent (s : Session) (loc : Locator) (prov prov' : Option Comparison) :
    ((s.perform prov (Action.clear loc)).fst.perform prov' (Action.clear loc)) =
      s.perform prov (Action.clear loc) := by
  simp [Session.perform, clearAt_clearAt]

/-!
C8: the popped-time decrement in the presenter split state.
-/

/-- Counting lemma: popped count of a cons. -/
theorem countPopped_cons (e : SplitEvent) (l : List SplitEvent) :
    countPopped (e :: l) =
      countPopped l + (match e with | .time _ .popped => 1 | _ => 0) := by
  cases e with
  | pace p => simp [countPopped, List.countP_cons]
  | time t k => cases k <;> simp [countPopped, List.countP_cons]

/-- Counting lemma: pushed count of a cons. -/
theorem countPushed_cons (e : SplitEvent) (l : List SplitEvent) :
    countPushed (e :: l) =
      countPushed l + (match e with | .time _ .pushed => 1 | _ => 0) := by
  cases e with
  | pace p => simp [countPushed, List.countP_cons]
  | time t k => cases k <;> simp [countPushed, List.countP_cons]

/-- C8.  Handling a Popped event decrements `num_times` by exactly one
and is only possible when `num_times` is at least one; and along any
event sequence in which every prefix has at least as many Pushed as
Popped events (counting from the starting state's time count), delivery
never underflows and the final count is the starting count plus pushes
minus pops — in particular it never goes below zero. -/
theorem popped_decrement_safe :
    (∀ (st : PSplit) (t : Time), 0 < st.numTimes →
      st.handleEvent (SplitEvent.time t TimeKind.popped) =
        some ⟨st.numTimes - 1, st.name, st.aggregates, st.paceInRun⟩) ∧
    (∀ (evts : List SplitEvent) (st : PSplit),
      (∀ p q, evts = p ++ q → countPopped p ≤ st.numTimes + countPushed p) →
      ∃ st2, st.handleEvents evts = some st2 ∧
        st2.numTimes + countPopped evts = st.numTimes + countPushed evts) := by
  constructor
  · intro st t h
    simp [PSplit.handleEvent, Nat.pos_iff_ne_zero.mp h]
  · intro evts
    induction evts with
    | nil =>
        intro st _
        exact ⟨st, rfl, by simp [countPopped, countPushed]⟩
    | cons e rest ih =>
        intro st h
        have hone := h [e] rest rfl
        cases e with
        | pace p =>
            obtain ⟨st2, h2, h3⟩ := ih ⟨st.numTimes, st.name, st.aggregates, p⟩
              (fun p' q hq => by
                have := h (SplitEvent.pace p :: p') q (by simp [hq])
                simpa [countPopped_cons, countPushed_cons] using this)
            refine ⟨st2, ?_, ?_⟩
            · simpa [PSplit.handleEvents, PSplit.handleEvent] using h2
            · simp [countPopped_cons, countPushed_cons] at h3 ⊢
              omega
        | time t k =>
            cases k with
            | pushed =>
                obtain ⟨st2, h2, h3⟩ :=
                  ih ⟨st.numTimes + 1, st.name, st.aggregates, st.paceInRun⟩
                  (fun p' q hq => by
                    have := h (SplitEvent.time t TimeKind.pushed :: p') q (by simp [hq])
                    simp only [countPopped_cons, countPushed_cons] at this ⊢
                    omega)
                refine ⟨st2, ?_, ?_⟩
                · simpa [PSplit.handleEvents, PSplit.handleEvent] using h2
                · simp [countPopped_cons, countPushed_cons] at h3 ⊢
                  omega
            | popped =>
                have hpos : 1 ≤ st.numTimes := by
                  simpa [countPopped_cons, countPushed_cons, countPopped,
                    countPushed] using hone
                obtain ⟨st2, h2, h3⟩ :=
                  ih ⟨st.numTimes - 1, st.name, st.aggregates, st.paceInRun⟩
                  (fun p' q hq => by
                    have := h (SplitEvent.time t TimeKind.popped :: p') q (by simp [hq])
                    simp only [countPopped_cons, countPushed_cons] at this ⊢
                    omega)
                refine ⟨st2, ?_, ?_⟩
                · have hne : ¬ st.numTimes = 0 := by omega
                  simpa [PSplit.handleEvents, PSplit.handleEvent, hne] using h2
                · simp [countPopped_cons, countPushed_cons] at h3 ⊢
                  omega
            | aggregate kd =>
                obtain ⟨st2, h2, h3⟩ :=
                  ih ⟨st.numTimes, st.name, st.aggregates.setKind kd (some t), st.paceInRun⟩
                  (fun p' q hq => by
                    have := h (SplitEvent.time t (TimeKind.aggregate kd) :: p') q (by simp [hq])
                    simpa [countPopped_cons, countPushed_cons] using this)
                refine ⟨st2, ?_, ?_⟩
                · simpa [PSplit.handleEvents, PSplit.handleEvent] using h2
                · simp [countPopped_cons, countPushed_cons] at h3 ⊢
                  omega

/-- C8 witness: a push followed by a pop on a fresh split succeeds and
returns the count to zero; a pop on a one-time split decrements to zero. -/
theorem popped_decrement_safe_witness :
    PSplit.handleEvent ⟨1, "x", AggSet.empty, SplitInRun.inconclusive⟩
        (SplitEvent.time 3 TimeKind.popped) =
      some ⟨0, "x", AggSet.empty, SplitInRun.inconclusive⟩ ∧
    ∃ st2, PSplit.handleEvents PSplit.defaultVal
        [SplitEvent.time 5 TimeKind.pushed, SplitEvent.time 5 TimeKind.popped] =
          some st2 ∧
      st2.numTimes + countPopped
          [SplitEvent.time 5 TimeKind.pushed, SplitEvent.time 5 TimeKind.popped] =
        PSplit.defaultVal.numTimes + countPushed
          [SplitEvent.time 5 TimeKind.pushed, SplitEvent.time 5 TimeKind.popped] := by
  constructor
  · exact popped_decrement_safe.1 ⟨1, "x", AggSet.empty, SplitInRun.inconclusive⟩ 3
      (by decide)
  · exact popped_decrement_safe.2
      [SplitEvent.time 5 TimeKind.pushed, SplitEvent.time 5 TimeKind.popped]
      PSplit.defaultVal
      (by
        intro p q hq
        match p, hq with
        | [], _ => simp [countPopped, countPushed]
        | [_], hq =>
            cases hq
            simp [countPopped, countPushed, List.countP_cons]
        | [_, _], hq =>
            rcases hq with ⟨⟩
            simp [countPopped, countPushed, List.countP_cons]
        | _ :: _ :: _ :: _, hq => simp at hq)

/-!
C9: the short-name map and the split vector stay in sync.
-/

/-- A successful lookup comes from a pair of the list. -/
theorem lookupName_mem : ∀ {m : List (ShortName × Nat)} {k : ShortName} {v : Nat},
    lookupName m k = some v → (k, v) ∈ m := by
  intro m
  induction m with
  | nil => intro k v h; simp [lookupName] at h
  | cons a rest ih =>
      intro k v h
      obtain ⟨a1, a2⟩ := a
      cases hk : a1 == k with
      | true =>
          rw [lookupName, if_pos hk] at h
          cases h
          rw [← eq_of_beq hk]
          exact List.mem_cons_self _ _
      | false =>
          rw [lookupName, if_neg (by simp [hk])] at h
          exact List.mem_cons_of_mem _ (ih h)

/-- Members of a bimap insertion are old members or the new pair. -/
theorem mem_bimapInsert : ∀ (m : List (ShortName × Nat)) (k : ShortName) (v : Nat)
    (x : ShortName × Nat), x ∈ bimapInsert m k v → x ∈ m ∨ x = (k, v) := by
  intro m k v
  induction m with
  | nil => intro x h; simp [bimapInsert] at h; exact Or.inr h
  | cons a rest ih =>
      intro x h
      obtain ⟨a1, a2⟩ := a
      by_cases hc : (a1 == k || a2 == v) = true
      · rw [bimapInsert, if_pos hc] at h
        rcases ih x h with h1 | h1
        · exact Or.inl (List.mem_cons_of_mem _ h1)
        · exact Or.inr h1
      · rw [bimapInsert, if_neg hc] at h
        rcases List.mem_cons.mp h with h1 | h1
        · exact Or.inl (by rw [h1]; exact List.mem_cons_self _ _)
        · rcases ih x h1 with h2 | h2
          · exact Or.inl (List.mem_cons_of_mem _ h2)
          · exact Or.inr h2

/-- Members of a map insertion are old members or the new pair. -/
theorem mem_mapInsert : ∀ (m : List (ShortName × Nat)) (k : ShortName) (v : Nat)
    (x : ShortName × Nat), x ∈ mapInsert m k v → x ∈ m ∨ x = (k, v) := by
  intro m k v
  induction m with
  | nil => intro x h; simp [mapInsert] at h; exact Or.inr h
  | cons a rest ih =>
      intro x h
      obtain ⟨a1, a2⟩ := a
      by_cases hc : (a1 == k) = true
      · rw [mapInsert, if_pos hc] at h
        rcases ih x h with h1 | h1
        · exact Or.inl (List.mem_cons_of_mem _ h1)
        · exact Or.inr h1
      · rw [mapInsert, if_neg hc] at h
        rcases List.mem_cons.mp h with h1 | h1
        · exact Or.inl (by rw [h1]; exact List.mem_cons_self _ _)
        · rcases ih x h1 with h2 | h2
          · exact Or.inl (List.mem_cons_of_mem _ h2)
          · exact Or.inr h2

/-- A bimap insertion binds its key to its value. -/
theorem lookup_bimapInsert_self : ∀ (m : List (ShortName × Nat)) (k : ShortName) (v : Nat),
    lookupName (bimapInsert m k v) k = some v := by
  intro m k v
  induction m with
  | nil => simp [bimapInsert, lookupName]
  | cons a rest ih =>
      obtain ⟨a1, a2⟩ := a
      by_cases hc : (a1 == k || a2 == v) = true
      · rw [bimapInsert, if_pos hc]; exact ih
      · rw [bimapInsert, if_neg hc]
        have h1 : (a1 == k) = false := by
          rcases Bool.or_eq_false_iff.mp (Bool.not_eq_true _ |>.mp hc) with ⟨h, _⟩
          exact h
        rw [lookupName, if_neg (by simp [h1])]
        exact ih

/-- A bimap insertion of a different key and a different value preserves
an existing binding. -/
theorem lookup_bimapInsert_ne (m : List (ShortName × Nat)) {k : ShortName} {v : Nat}
    {k' : ShortName} {v' : Nat} (h : lookupName m k = some v) (hk : k ≠ k') (hv : v ≠ v') :
    lookupName (bimapInsert m k' v') k = some v := by
  induction m with
  | nil => simp [lookupName] at h
  | cons a rest ih =>
      obtain ⟨a1, a2⟩ := a
      cases h1 : a1 == k with
      | true =>
          rw [lookupName, if_pos h1] at h
          have hav : a2 = v := by injection h
          have hak : a1 = k := eq_of_beq h1
          have hc : (a1 == k' || a2 == v') = false := by
            simp only [Bool.or_eq_false_iff, beq_eq_false_iff_ne]
            exact ⟨by rw [hak]; exact hk, by rw [hav]; exact hv⟩
          rw [bimapInsert, if_neg (by simp [hc])]
          rw [lookupName, if_pos h1]
          rw [hav]
      | false =>
          rw [lookupName, if_neg (by simp [h1])] at h
          by_cases hc : (a1 == k' || a2 == v') = true
          · rw [bimapInsert, if_pos hc]; exact ih h
          · rw [bimapInsert, if_neg hc]
            rw [lookupName, if_neg (by simp [h1])]
            exact ih h

/-- A map insertion binds its key to its value. -/
theorem lookup_mapInsert_self : ∀ (m : List (ShortName × Nat)) (k : ShortName) (v : Nat),
    lookupName (mapInsert m k v) k = some v := by
  intro m k v
  induction m with
  | nil => simp [mapInsert, lookupName]
  | cons a rest ih =>
      obtain ⟨a1, a2⟩ := a
      by_cases hc : (a1 == k) = true
      · rw [mapInsert, if_pos hc]; exact ih
      · rw [mapInsert, if_neg hc]
        rw [lookupName, if_neg hc]
        exact ih

/-- A map insertion of a different key preserves every lookup. -/
theorem lookup_mapInsert_ne (m : List (ShortName × Nat)) {k k' : ShortName} (v' : Nat)
    (hk : k ≠ k') : lookupName (mapInsert m k' v') k = lookupName m k := by
  induction m with
  | nil =>
      simp [mapInsert, lookupName, if_neg]
      exact fun h => absurd h (Ne.symm hk)
  | cons a rest ih =>
      obtain ⟨a1, a2⟩ := a
      by_cases hc : (a1 == k') = true
      · rw [mapInsert, if_pos hc]
        rw [ih]
        have : (a1 == k) = false :=
          beq_eq_false_iff_ne.mpr (by rw [eq_of_beq hc]; exact Ne.symm hk)
        rw [lookupName, if_neg (by simp [this])]
      · rw [mapInsert, if_neg hc]
        cases h1 : a1 == k with
        | true => rw [lookupName, if_pos h1, lookupName, if_pos h1]
        | false =>
            rw [lookupName, if_neg (by simp [h1]), lookupName, if_neg (by simp [h1])]
            exact ih

/-- The shape of one `add_split` step. -/
theorem addSplit_shortMap (st : PState) (short : ShortName) (nm : String) :
    (st.addSplit short nm).shortMap = bimapInsert st.shortMap short st.splits.length := by
  simp [PState.addSplit]

/-- One `add_split` step grows the split vector by one. -/
theorem addSplit_splits_len (st : PState) (short : ShortName) (nm : String) :
    (st.addSplit short nm).splits.length = st.splits.length + 1 := by
  simp [PState.addSplit]

/-- Unfolding equation for `addSplits` on a cons. -/
theorem addSplits_cons (st : PState) (short : ShortName) (nm : String)
    (rest : List (ShortName × String)) :
    st.addSplits ((short, nm) :: rest) = (st.addSplit short nm).addSplits rest := rfl

/-- Every binding of the short-name map stays below the vector length
along any sequence of `add_split` calls. -/
theorem addSplits_bound : ∀ (pairs : List (ShortName × String)) (st : PState),
    (∀ k v, (k, v) ∈ st.shortMap → v < st.splits.length) →
    ∀ k v, (k, v) ∈ (st.addSplits pairs).shortMap →
      v < (st.addSplits pairs).splits.length := by
  intro pairs
  induction pairs with
  | nil => intro st h k v hm; exact h k v hm
  | cons p rest ih =>
      intro st h k v hm
      obtain ⟨short, nm⟩ := p
      rw [addSplits_cons] at hm ⊢
      refine ih (st.addSplit short nm) ?_ k v hm
      intro k' v' hm'
      rw [addSplit_shortMap] at hm'
      rw [addSplit_splits_len]
      rcases mem_bimapInsert _ _ _ _ hm' with h1 | h1
      · have := h k' v' h1; omega
      · cases h1; omega

/-- An established in-range binding survives further `add_split` calls
with fresh short names. -/
theorem addSplits_stable : ∀ (pairs : List (ShortName × String)) (st : PState)
    (k : ShortName) (v : Nat),
    lookupName st.shortMap k = some v → v < st.splits.length →
    k ∉ pairs.map Prod.fst →
    lookupName (st.addSplits pairs).shortMap k = some v := by
  intro pairs
  induction pairs with
  | nil => intro st k v h _ _; exact h
  | cons p rest ih =>
      intro st k v h hlt hnin
      obtain ⟨short, nm⟩ := p
      simp only [List.map_cons, List.mem_cons, not_or] at hnin
      rw [addSplits_cons]
      refine ih _ k v ?_ ?_ hnin.2
      · rw [addSplit_shortMap]
        exact lookup_bimapInsert_ne _ h hnin.1 (by omega)
      · rw [addSplit_splits_len]; omega

/-- With pairwise-distinct short names, the i-th `add_split` call binds
its short name to index (initial length + i). -/
theorem addSplits_lookup : ∀ (pairs : List (ShortName × String)) (st : PState),
    (pairs.map Prod.fst).Nodup →
    ∀ i k nm, pairs[i]? = some (k, nm) →
    lookupName (st.addSplits pairs).shortMap k = some (st.splits.length + i) := by
  intro pairs
  induction pairs with
  | nil => intro st _ i k nm h; simp at h
  | cons p rest ih =>
      intro st hnd i k nm h
      obtain ⟨short0, nm0⟩ := p
      simp only [List.map_cons, List.nodup_cons] at hnd
      cases i with
      | zero =>
          simp only [List.getElem?_cons_zero, Option.some.injEq, Prod.mk.injEq] at h
          obtain ⟨hk, _⟩ := h
          subst hk
          rw [addSplits_cons]
          have hbase : lookupName (st.addSplit short0 nm0).shortMap short0 =
              some st.splits.length := by
            rw [addSplit_shortMap]; exact lookup_bimapInsert_self _ _ _
          have hst := addSplits_stable rest (st.addSplit short0 nm0) short0
            st.splits.length hbase (by rw [addSplit_splits_len]; omega) hnd.1
          simpa using hst
      | succ j =>
          simp only [List.getElem?_cons_succ] at h
          rw [addSplits_cons]
          have hj := ih (st.addSplit short0 nm0) hnd.2 j k nm h
          rw [addSplit_splits_len] at hj
          have harith : st.splits.length + 1 + j = st.splits.length + (j + 1) := by omega
          rw [harith] at hj
          exact hj

/-- Unfolding equation for `fromIterGo` on a cons. -/
theorem fromIterGo_cons (i : Nat) (sp : Split) (rest : List Split) (st : SplitSet) :
    SplitSet.fromIterGo i (sp :: rest) st =
      SplitSet.fromIterGo (i + 1) rest
        ⟨mapInsert st.shortMap sp.info.short i, st.vec ++ [PSplit.fromDump sp]⟩ := rfl

/-- Every binding stays below the vector length along `from_iter`. -/
theorem fromIterGo_bound : ∀ (l : List Split) (st : SplitSet) (i : Nat),
    i = st.vec.length →
    (∀ k v, (k, v) ∈ st.shortMap → v < st.vec.length) →
    ∀ k v, (k, v) ∈ (SplitSet.fromIterGo i l st).shortMap →
      v < (SplitSet.fromIterGo i l st).vec.length := by
  intro l
  induction l with
  | nil => intro st i _ h k v hm; exact h k v hm
  | cons sp rest ih =>
      intro st i hi h k v hm
      rw [fromIterGo_cons] at hm ⊢
      refine ih _ (i + 1) ?_ ?_ k v hm
      · simp [hi]
      · intro k' v' hm'
        rcases mem_mapInsert _ _ _ _ hm' with h1 | h1
        · have := h k' v' h1
          simp only [List.length_append, List.length_cons, List.length_nil]
          omega
        · cases h1
          simp only [List.length_append, List.length_cons, List.length_nil]
          omega

/-- An established binding survives `from_iter` steps with fresh names. -/
theorem fromIterGo_stable : ∀ (l : List Split) (i : Nat) (st : SplitSet)
    (k : ShortName) (v : Nat),
    lookupName st.shortMap k = some v →
    k ∉ l.map (fun sp => sp.info.short) →
    lookupName (SplitSet.fromIterGo i l st).shortMap k = some v := by
  intro l
  induction l with
  | nil => intro _ st k v h _; exact h
  | cons sp rest ih =>
      intro i st k v h hnin
      simp only [List.map_cons, List.mem_cons, not_or] at hnin
      rw [fromIterGo_cons]
      refine ih (i + 1) _ k v ?_ hnin.2
      rw [lookup_mapInsert_ne _ _ hnin.1]
      exact h

/-- With pairwise-distinct short names, `from_iter` binds the j-th dump's
short name to enumeration index (i + j). -/
theorem fromIterGo_lookup : ∀ (l : List Split) (i : Nat) (st : SplitSet),
    ((l.map fun sp => sp.info.short).Nodup) →
    ∀ j sp, l[j]? = some sp →
    lookupName (SplitSet.fromIterGo i l st).shortMap sp.info.short = some (i + j) := by
  intro l
  induction l with
  | nil => intro i st _ j sp h; simp at h
  | cons sp0 rest ih =>
      intro i st hnd j sp h
      simp only [List.map_cons, List.nodup_cons] at hnd
      cases j with
      | zero =>
          simp only [List.getElem?_cons_zero, Option.some.injEq] at h
          subst h
          rw [fromIterGo_cons]
          have hbase : lookupName (mapInsert st.shortMap sp0.info.short i)
              sp0.info.short = some i := lookup_mapInsert_self _ _ _
          have hst := fromIterGo_stable rest (i + 1)
            ⟨mapInsert st.shortMap sp0.info.short i, st.vec ++ [PSplit.fromDump sp0]⟩
            sp0.info.short i hbase hnd.1
          simpa using hst
      | succ j' =>
          simp only [List.getElem?_cons_succ] at h
          rw [fromIterGo_cons]
          have hj := ih (i + 1)
            ⟨mapInsert st.shortMap sp0.info.short i, st.vec ++ [PSplit.fromDump sp0]⟩
            hnd.2 j' sp h
          have harith : i + 1 + j' = i + (j' + 1) := by omega
          rw [harith] at hj
          exact hj

/-- C9 (amended).  After any sequence of `add_split` calls starting from
the empty presenter state — and likewise for a split set built by
`from_iter` — every short name stored in the map is bound to an index
strictly below the split vector's length, so looking a stored short name
up and indexing always finds a split; and when the inserted short names
are pairwise distinct the i-th inserted split is bound to index i.  (With
duplicate short names only the latest insertion of a name stays bound;
see the counterexample.) -/
theorem short_map_split_sync (pairs : List (ShortName × String)) (l : List Split) :
    (∀ k v, (k, v) ∈ (PState.empty.addSplits pairs).shortMap →
        v < (PState.empty.addSplits pairs).splits.length) ∧
    (∀ k v, lookupName (PState.empty.addSplits pairs).shortMap k = some v →
        ∃ sp, (PState.empty.addSplits pairs).splits[v]? = some sp) ∧
    ((pairs.map Prod.fst).Nodup →
      ∀ i k nm, pairs[i]? = some (k, nm) →
        lookupName (PState.empty.addSplits pairs).shortMap k = some i) ∧
    (∀ k v, (k, v) ∈ (SplitSet.fromIter l).shortMap →
        v < (SplitSet.fromIter l).vec.length) ∧
    ((l.map (fun sp => sp.info.short)).Nodup →
      ∀ i sp, l[i]? = some sp → (SplitSet.fromIter l).indexOf sp.info.short = some i) := by
  have hbound := addSplits_bound pairs PState.empty (by intro k v h; simp [PState.empty] at h)
  refine ⟨hbound, ?_, ?_, ?_, ?_⟩
  · intro k v h
    have hv := hbound k v (lookupName_mem h)
    exact ⟨_, List.getElem?_eq_getElem hv⟩
  · intro hnd i k nm h
    have := addSplits_lookup pairs PState.empty hnd i k nm h
    simpa [PState.empty] using this
  · exact fromIterGo_bound l ⟨[], []⟩ 0 (by simp)
      (by intro k v h; simp at h)
  · intro hnd i sp h
    have := fromIterGo_lookup l 0 ⟨[], []⟩ hnd i sp h
    simpa [SplitSet.fromIter, SplitSet.indexOf] using this

/-- C9 counterexample: inserting short names a, b, a rebinds a to the
newest index 2 in both structures, so the 0-th inserted split is no
longer bound to index 0, refuting the unconditional binding claim. -/
theorem short_map_rebind_counterexample :
    lookupName (PState.empty.addSplits [("a", "A"), ("b", "B"), ("a", "C")]).shortMap "a" =
        some 2 ∧
    ¬ lookupName (PState.empty.addSplits [("a", "A"), ("b", "B"), ("a", "C")]).shortMap "a" =
        some 0 ∧
    (SplitSet.fromIter [⟨⟨"a", "A"⟩, []⟩, ⟨⟨"b", "B"⟩, []⟩, ⟨⟨"a", "C"⟩, []⟩]).indexOf "a" =
        some 2 ∧
    ¬ (SplitSet.fromIter [⟨⟨"a", "A"⟩, []⟩, ⟨⟨"b", "B"⟩, []⟩, ⟨⟨"a", "C"⟩, []⟩]).indexOf "a" =
        some 0 := by
  decide

/-- C9 witness: with distinct names a, b, the second split is bound to
index 1 in both the presenter state and the split set. -/
theorem short_map_split_sync_witness :
    lookupName (PState.empty.addSplits [("a", "A"), ("b", "B")]).shortMap "b" = some 1 ∧
    (SplitSet.fromIter [⟨⟨"a", "A"⟩, []⟩, ⟨⟨"b", "B"⟩, []⟩]).indexOf "b" = some 1 := by
  constructor
  · exact (short_map_split_sync [("a", "A"), ("b", "B")] []).2.2.1 (by decide) 1 "b" "B"
      (by decide)
  · exact (short_map_split_sync [] [⟨⟨"a", "A"⟩, []⟩, ⟨⟨"b", "B"⟩, []⟩]).2.2.2.2 (by decide)
      1 ⟨⟨"b", "B"⟩, []⟩ (by decide)

/-!
C1: the Total event at the end of the sweep.
-/

/-- The sweep's running total is the candidate fold. -/
theorem sweepTotal_eq_foldCand (s : Session) :
    ∀ (L : List (Split × AggSet)) (t : PacedTime),
      sweepTotal s t L = foldCand t (pacedCandidatesOf s L) := by
  intro L
  induction L with
  | nil => intro t; rfl
  | cons pa rest ih =>
      intro t
      obtain ⟨sp, agg⟩ := pa
      cases hc : agg.attempt.cumulative with
      | none => simp [sweepTotal, pacedCandidatesOf, hc, ih]
      | some c => simp [sweepTotal, pacedCandidatesOf, hc, foldCand, ih]

/-- The fold's time component is the running maximum of candidate times. -/
theorem foldCand_time : ∀ (L : List PacedTime) (t : PacedTime),
    (foldCand t L).time = L.foldl (fun a c => max a c.time) t.time := by
  intro L
  induction L with
  | nil => intro t; rfl
  | cons c rest ih =>
      intro t
      rw [foldCand, List.foldl_cons, ih]
      congr 1
      by_cases h : t.time < c.time
      · rw [if_pos h]
        exact (Nat.max_eq_right (Nat.le_of_lt h)).symm
      · rw [if_neg h]
        exact (Nat.max_eq_left (Nat.le_of_not_lt h)).symm

/-- The seed is a lower bound of the running maximum. -/
theorem le_foldl_max : ∀ (L : List PacedTime) (a : Nat),
    a ≤ L.foldl (fun x c => max x c.time) a := by
  intro L
  induction L with
  | nil => intro a; exact Nat.le_refl a
  | cons c rest ih =>
      intro a
      rw [List.foldl_cons]
      exact Nat.le_trans (Nat.le_max_left _ _) (ih _)

/-- The fold's result is the first entry of seed-then-candidates whose
time equals the fold's final time: strictly-greater updates keep the
earliest achiever of the maximum. -/
theorem foldCand_find : ∀ (L : List PacedTime) (t : PacedTime),
    (t :: L).find? (fun p => p.time == (foldCand t L).time) = some (foldCand t L) := by
  intro L
  induction L with
  | nil =>
      intro t
      simp [foldCand]
  | cons c rest ih =>
      intro t
      by_cases h : t.time < c.time
      · have hfc : foldCand t (c :: rest) = foldCand c rest := by
          rw [foldCand, if_pos h]
        rw [hfc]
        have hct : c.time ≤ (foldCand c rest).time := by
          rw [foldCand_time]; exact le_foldl_max rest c.time
        have hne : ¬ t.time = (foldCand c rest).time :=
          Nat.ne_of_lt (Nat.lt_of_lt_of_le h hct)
        rw [List.find?_cons_of_neg _ (by simp [hne])]
        exact ih c
      · have hfc : foldCand t (c :: rest) = foldCand t rest := by
          rw [foldCand, if_neg h]
        rw [hfc]
        have htr : t.time ≤ (foldCand t rest).time := by
          rw [foldCand_time]; exact le_foldl_max rest t.time
        by_cases ht : t.time = (foldCand t rest).time
        · have hIH := ih t
          rw [List.find?_cons_of_pos _ (by simp [ht])] at hIH
          rw [List.find?_cons_of_pos _ (by simp [ht])]
          exact hIH
        · have hIH := ih t
          rw [List.find?_cons_of_neg _ (by simp [ht])] at hIH
          have hle : c.time ≤ t.time := Nat.le_of_not_lt h
          have hct : ¬ c.time = (foldCand t rest).time :=
            Nat.ne_of_lt (Nat.lt_of_le_of_lt hle (Nat.lt_of_le_of_ne htr ht))
          rw [List.find?_cons_of_neg _ (by simp [ht]),
            List.find?_cons_of_neg _ (by simp [hct])]
          exact hIH

/-- Once the running cumulative is lost it never comes back: no later
split contributes a defined cumulative. -/
theorem aggregatesFrom_none_cums : ∀ (l : List Split) (c : Comparison),
    definedCumsOf (aggregatesFrom c none l) = [] := by
  intro l
  induction l with
  | nil => intro c; rfl
  | cons sp rest ih =>
      intro c
      cases hsp : sp.times.isEmpty <;>
        simp [aggregatesFrom, definedCumsOf, hsp, ih]

/-- The defined cumulatives produced from a running sum form an
ascending chain above the seed. -/
theorem aggregatesFrom_cums_chain : ∀ (l : List Split) (c : Comparison) (a : Time),
    List.Chain (· ≤ ·) a (definedCumsOf (aggregatesFrom c (some a) l)) := by
  intro l
  induction l with
  | nil => intro c a; exact List.Chain.nil
  | cons sp rest ih =>
      intro c a
      cases hsp : sp.times.isEmpty with
      | true =>
          simp only [aggregatesFrom, definedCumsOf, hsp]
          simp [aggregatesFrom_none_cums]
      | false =>
          simp only [aggregatesFrom, definedCumsOf, hsp]
          exact List.Chain.cons (Nat.le_add_right a _) (ih c (a + sp.times.sum))

/-- For an ascending chain, the running maximum is the last element. -/
theorem chain_foldl_max : ∀ (L : List Nat) (a : Nat),
    List.Chain (· ≤ ·) a L → L.foldl max a = L.getLast?.getD a := by
  intro L
  induction L with
  | nil => intro a _; rfl
  | cons b rest ih =>
      intro a hch
      rw [List.chain_cons] at hch
      obtain ⟨hab, hch2⟩ := hch
      rw [List.foldl_cons, Nat.max_eq_right hab, ih b hch2]
      cases rest with
      | nil => simp
      | cons x xs =>
          rw [List.getLast?_cons_cons]
          have hs : ((x :: xs).getLast?).isSome := by simp [List.getLast?_isSome]
          obtain ⟨y, hy⟩ := Option.isSome_iff_exists.mp hs
          rw [hy]
          rfl

/-- The defined cumulatives are the candidate times. -/
theorem definedCumsOf_eq_map (s : Session) : ∀ (L : List (Split × AggSet)),
    definedCumsOf L = (pacedCandidatesOf s L).map PacedTime.time := by
  intro L
  induction L with
  | nil => rfl
  | cons pa rest ih =>
      obtain ⟨sp, agg⟩ := pa
      cases hc : agg.attempt.cumulative <;>
        simp [definedCumsOf, pacedCandidatesOf, hc, ih]

/-- C1 (amended).  The sweep triggered by a mutating action ends with
one Total event for the attempt source whose value is the cumulative
aggregate of the last split with a defined attempt cumulative (the
default zero when there is none), and whose pace is that of the EARLIEST
candidate achieving that value, the default inconclusive candidate
included — the strict-inequality update in the loop keeps the earlier
split on ties, not the later one as claimed. -/
theorem total_event_characterisation (s : Session) :
    (s.observePacesAndAggregates).getLast? =
      some (Event.total ⟨totalPaceSpec s, totalTimeSpec s⟩ Source.attempt) := by
  have hlast : (s.observePacesAndAggregates).getLast? =
      some (Event.total (sweepTotal s PacedTime.defaultVal
        (s.run.aggregates s.comparison)) Source.attempt) := by
    unfold Session.observePacesAndAggregates
    exact List.getLast?_concat _
  rw [hlast]
  set r := sweepTotal s PacedTime.defaultVal (s.run.aggregates s.comparison) with hrdef
  have hr : r = foldCand PacedTime.defaultVal (pacedCandidates s) := by
    rw [hrdef, sweepTotal_eq_foldCand]
    rfl
  have htime : r.time = totalTimeSpec s := by
    rw [hr, foldCand_time]
    have hmap : (pacedCandidates s).foldl (fun a c => max a c.time)
        PacedTime.defaultVal.time =
        (definedCumsOf (s.run.aggregates s.comparison)).foldl max 0 := by
      rw [definedCumsOf_eq_map s, List.foldl_map]
      rfl
    have hagg : s.run.aggregates s.comparison =
        aggregatesFrom s.comparison (some 0) s.run.splits := rfl
    rw [hmap, hagg,
      chain_foldl_max _ 0 (aggregatesFrom_cums_chain s.run.splits s.comparison 0)]
    rfl
  have hfind := foldCand_find (pacedCandidates s) PacedTime.defaultVal
  rw [← hr] at hfind
  have hps : totalPaceSpec s = r.pace := by
    unfold totalPaceSpec
    rw [← htime, hfind]
    rfl
  rw [hps, ← htime]

/-- C1 counterexample.  In `cSess` splits a and b both have attempt
cumulative 10 (a tie); a is paced ahead, b behind.  The emitted Total
carries the earlier split's overall pace (ahead), while the claim's
tie rule — prefer the later split — prescribes behind. -/
theorem total_event_tie_counterexample :
    (cSess.observePacesAndAggregates).getLast? =
        some (Event.total ⟨Pace.ahead, 10⟩ Source.attempt) ∧
    totalPaceClaim cSess = Pace.behind ∧
    totalTimeSpec cSess = 10 ∧
    ¬ (cSess.observePacesAndAggregates).getLast? =
        some (Event.total ⟨totalPaceClaim cSess, totalTimeSpec cSess⟩ Source.attempt) := by
  decide

end Zombie
